import Mathlib

/-!
# fontgen: glyph dimensions, code-point encoding and bit packing

A shallow embedding of `src/tools/fontgen.c` (`render_glyph`, `generate_font`).
The outline library (cairo / FreeType) is a parameter: text extents, font
extents, the coverage bytes of the A8 surface and its stride are supplied by an
`OutlineSource`.  A `double` is the rational it denotes; the result of a
`double` addition or subtraction is the exact result passed through a rounding
`rnd`, also a parameter.  The C `int` values are mathematical integers (a
conversion or sum that leaves the range of `int` has no defined behaviour in C,
so nothing is promised there).  Reading an array element that was never
written has no defined behaviour either: such a run ends in a `Fault`.
-/

namespace Fontgen

/-! ## The packing loop of `render_glyph` (lines 89-113) -/

/-- Local variables of the packing loop together with the bytes already
printed to `out` (oldest first). -/
structure PackState where
  byte_val : Nat
  bit_idx : Nat
  count : Nat
  emitted : List Nat
deriving DecidableEq, Repr

/-- State on entry to the loop: `byte_val = 0; bit_idx = 0; count = 0;`. -/
def pack_init : PackState :=
  { byte_val := 0, bit_idx := 0, count := 0, emitted := [] }

/-- Body of the inner `for x` loop for one coverage sample `alpha`. -/
def pack_pixel (s : PackState) (alpha : Nat) : PackState :=
  let byte_val := if alpha > 128 then s.byte_val ||| (1 <<< (7 - s.bit_idx)) else s.byte_val
  let bit_idx := s.bit_idx + 1
  if bit_idx = 8 then
    { byte_val := 0, bit_idx := 0, count := s.count + 1, emitted := s.emitted ++ [byte_val] }
  else
    { byte_val := byte_val, bit_idx := bit_idx, count := s.count, emitted := s.emitted }

/-- The inner loop `for (x = 0; x < width; x++)` on row `y`. -/
def pack_row (data : Nat → Nat) (stride width y : Nat) (s : PackState) : PackState :=
  (List.range width).foldl (fun st x => pack_pixel st (data (y * stride + x))) s

/-- The outer loop `for (y = 0; y < height; y++)`. -/
def pack_rows (data : Nat → Nat) (stride width height : Nat) (s : PackState) : PackState :=
  (List.range height).foldl (fun st y => pack_row data stride width y st) s

/-- The trailing `if (bit_idx > 0)` that prints the partial byte. -/
def pack_flush (s : PackState) : PackState :=
  if s.bit_idx > 0 then
    { s with count := s.count + 1, emitted := s.emitted ++ [s.byte_val] }
  else s

/-- The whole packing section: initialisation, both loops and the flush. -/
def pack_glyph (data : Nat → Nat) (stride width height : Nat) : PackState :=
  pack_flush (pack_rows data stride width height pack_init)

/-- The samples in the order the loops visit them. -/
def samples (data : Nat → Nat) (stride width height : Nat) : List Nat :=
  (List.range height).flatMap (fun y => (List.range width).map (fun x => data (y * stride + x)))

/-- Feeding a list of samples to the loop body, one after the other. -/
def pack_list (s : PackState) (l : List Nat) : PackState :=
  l.foldl pack_pixel s

/-- Loop invariant after the samples `l` have been consumed: where the
counters stand, what the printed bytes hold and what the partial byte holds. -/
structure PackInv (l : List Nat) (s : PackState) : Prop where
  bit_idx_eq : s.bit_idx = l.length % 8
  count_eq : s.count = l.length / 8
  length_eq : s.emitted.length = l.length / 8
  bits : ∀ k, k < 8 * (l.length / 8) →
    (s.emitted.getD (k / 8) 0).testBit (7 - k % 8) = decide (l.getD k 0 > 128)
  cur : ∀ i, s.byte_val.testBit i =
    (decide (i < 8 ∧ 7 - i < l.length % 8) &&
      decide (l.getD (8 * (l.length / 8) + (7 - i)) 0 > 128))
  bytes : ∀ b ∈ s.emitted, b < 256

/-! ## Code-point encoding (lines 39-56 and 162-165) -/

/-- Why a run has no defined behaviour in C. -/
inductive Fault where
  | uninitialised_read
  | out_of_bounds_read
deriving DecidableEq, Repr

/-- The local array `char utf8[5]`, one field per element: `none` for an
element that has not been written, `some b` for one that holds the byte `b`. -/
structure Utf8Buf where
  b0 : Option Nat
  b1 : Option Nat
  b2 : Option Nat
  b3 : Option Nat
  b4 : Option Nat
deriving DecidableEq, Repr

/-- The array as declared, before any store. -/
def Utf8Buf.uninit : Utf8Buf :=
  { b0 := none, b1 := none, b2 := none, b3 := none, b4 := none }

/-- The five elements of the array in index order. -/
def Utf8Buf.toList (u : Utf8Buf) : List (Option Nat) := [u.b0, u.b1, u.b2, u.b3, u.b4]

/-- Reading a C string element by element: the bytes before the first zero.
Meeting an element that was never written, or the end of the array, before a
zero leaves the read without defined behaviour. -/
def read_c_string : List (Option Nat) → Except Fault (List Nat)
  | [] => Except.error Fault.out_of_bounds_read
  | none :: _ => Except.error Fault.uninitialised_read
  | some b :: rest =>
    if b = 0 then Except.ok []
    else
      match read_c_string rest with
      | Except.ok s => Except.ok (b :: s)
      | Except.error f => Except.error f

/-- The C string a `char*` to the array denotes, as the library reads it. -/
def c_string (u : Utf8Buf) : Except Fault (List Nat) := read_c_string u.toList

/-- Storing an integer into a `char` keeps its low eight bits. -/
def to_char (v : Nat) : Nat := v % 256

/-- The `if` chain of `render_glyph` that fills `utf8` and sets `len`.  No
branch is taken for a code point from `0x10000` on: the array stays as it was
and `len` stays 0. -/
def render_glyph_utf8 (codepoint : Nat) (utf8 : Utf8Buf) : Utf8Buf × Nat :=
  if codepoint < 0x80 then
    ({ utf8 with b0 := some (to_char codepoint), b1 := some 0 }, 1)
  else if codepoint < 0x800 then
    ({ utf8 with b0 := some (to_char (0xC0 ||| (codepoint >>> 6))),
                 b1 := some (to_char (0x80 ||| (codepoint &&& 0x3F))),
                 b2 := some 0 }, 2)
  else if codepoint < 0x10000 then
    ({ utf8 with b0 := some (to_char (0xE0 ||| (codepoint >>> 12))),
                 b1 := some (to_char (0x80 ||| ((codepoint >>> 6) &&& 0x3F))),
                 b2 := some (to_char (0x80 ||| (codepoint &&& 0x3F))),
                 b3 := some 0 }, 3)
  else
    (utf8, 0)

/-- The `if` chain of the second loop of `generate_font`; its last branch is a
plain `else`. -/
def generate_font_utf8 (cp : Nat) (utf8 : Utf8Buf) : Utf8Buf :=
  if cp < 0x80 then
    { utf8 with b0 := some (to_char cp), b1 := some 0 }
  else if cp < 0x800 then
    { utf8 with b0 := some (to_char (0xC0 ||| (cp >>> 6))),
                b1 := some (to_char (0x80 ||| (cp &&& 0x3F))),
                b2 := some 0 }
  else
    { utf8 with b0 := some (to_char (0xE0 ||| (cp >>> 12))),
                b1 := some (to_char (0x80 ||| ((cp >>> 6) &&& 0x3F))),
                b2 := some (to_char (0x80 ||| (cp &&& 0x3F))),
                b3 := some 0 }

/-- Decoder written from the encoding rules (one, two or three units with the
lead prefixes `0`, `110`, `1110` and continuation prefix `10`); used to state
that decoding undoes encoding. -/
def utf8_decode : List Nat → Option Nat
  | [a] => if a / 128 = 0 then some a else none
  | [a, b] =>
    if a / 32 = 6 ∧ b / 64 = 2 then some (a % 32 * 64 + b % 64) else none
  | [a, b, c] =>
    if a / 16 = 14 ∧ b / 64 = 2 ∧ c / 64 = 2 then
      some (a % 16 * 4096 + b % 64 * 64 + c % 64)
    else none
  | _ => none

/-! ## Extents and dimensions (lines 58-63 and 167-171) -/

/-- The record `cairo_text_extents_t`. -/
structure TextExtents where
  x_bearing : ℚ
  y_bearing : ℚ
  width : ℚ
  height : ℚ
  x_advance : ℚ
  y_advance : ℚ

/-- The fields of `cairo_font_extents_t` that are printed. -/
structure FontExtents where
  ascent : ℚ
  descent : ℚ
  height : ℚ

/-- The outline library for one loaded face: extents of a text at a font
size, font-wide extents at a font size, and for a glyph surface (text, font
size, surface width and height, pen position) its stride and its bytes. -/
structure OutlineSource where
  text_extents : List Nat → ℚ → TextExtents
  font_extents : ℚ → FontExtents
  surface_stride : Int → Int → Nat
  surface_data : List Nat → ℚ → Int → Int → ℚ → ℚ → Nat → Nat

/-- The part of a `cairo_t` the program depends on: the current font size (the
face is always the one of the `OutlineSource`). -/
structure Cairo where
  font_size : ℚ

/-- What is assumed of the rounding `rnd` that turns the exact result of a
`double` addition or subtraction into the `double` the machine delivers: it is
monotone, and it leaves every integer of magnitude at most `2^53` as it is.
Rounding to nearest (and every directed rounding) of IEEE binary64 has both
properties. -/
def IsDoubleRounding (rnd : ℚ → ℚ) : Prop :=
  Monotone rnd ∧ ∀ n : Int, |n| ≤ 2 ^ 53 → rnd (n : ℚ) = (n : ℚ)

/-- Rounding to the nearest multiple of `2^(-k)`, ties upward: a rounding with
the laws of `IsDoubleRounding`; for `k = 52` it is what rounding to `double`
does to a value of magnitude between 1 and 2. -/
def round_to_grid (k : Nat) (q : ℚ) : ℚ := (⌊q * 2 ^ k + 1 / 2⌋ : ℚ) / 2 ^ k

/-- The conversion `(int)d` of a `double`: the fraction is discarded, toward zero. -/
def c_int (d : ℚ) : Int := if 0 ≤ d then ⌊d⌋ else ⌈d⌉

/-- Lines 60-61: `width` and `height` before the `<= 2` tests. -/
def render_glyph_provisional (extents : TextExtents) : Int × Int :=
  (c_int extents.width + 2, c_int extents.height + 2)

/-- Lines 60-63 of `render_glyph`; `size` is its `double` parameter. -/
def render_glyph_dims (extents : TextExtents) (size : ℚ) : Int × Int :=
  let width := (render_glyph_provisional extents).1
  let height := (render_glyph_provisional extents).2
  let width := if width ≤ 2 then c_int extents.x_advance else width
  let height := if height ≤ 2 then c_int size else height
  (width, height)

/-- Lines 168-169: `width` and `height` before the `<= 2` tests. -/
def generate_font_provisional (extents : TextExtents) : Int × Int :=
  (c_int extents.width + 2, c_int extents.height + 2)

/-- Lines 168-171 of `generate_font`; `size` is an `int` there, so `(int)size`
is `size`. -/
def generate_font_dims (extents : TextExtents) (size : Int) : Int × Int :=
  let width := (generate_font_provisional extents).1
  let height := (generate_font_provisional extents).2
  let width := if width ≤ 2 then c_int extents.x_advance else width
  let height := if height ≤ 2 then size else height
  (width, height)

/-! ## What is written to the output file -/

/-- One `glyphs.put(cp, Glyph{ ... })` line: the values printed. -/
structure Glyph where
  cp : Nat
  width : Int
  height : Int
  advance_x : Int
  bearing_x : Int
  bearing_y : Int
  data_name : String
  data_size : Int
  data_cp : Nat
deriving DecidableEq

/-- The pieces `render_glyph` and `generate_font` print, in order. -/
inductive OutItem where
  | font_comment (name : String) (size : Int)
  | glyph_data (name : String) (size : Int) (codepoint : Nat) (bytes : List Nat)
  | init_open (name : String) (size : Int)
  | glyph_put (g : Glyph)
  | init_return (height ascent descent : Int)
deriving DecidableEq

/-- What one call of `render_glyph` leaves behind: the context, `len`, the
`width` and `height` the surface was created with, and the constant printed. -/
structure RenderResult where
  cr : Cairo
  len : Nat
  width : Int
  height : Int
  item : OutItem

/-- Lines 58-118 of `render_glyph`, from `cairo_text_extents` on, where `text`
is the C string the library reads from `utf8`.  The pen position
`-bearing + 1` is a `double` sum, rounded by `rnd`.  A loop bound that is
negative runs no iteration, as `Int.toNat` gives. -/
def render_glyph_body (rnd : ℚ → ℚ) (src : OutlineSource) (cr : Cairo) (size : ℚ)
    (codepoint : Nat) (font_name_suffix : String) (len : Nat) (text : List Nat) :
    RenderResult :=
  let extents := src.text_extents text cr.font_size
  let width := (render_glyph_dims extents size).1
  let height := (render_glyph_dims extents size).2
  let data := src.surface_data text size width height
    (rnd (-extents.x_bearing + 1)) (rnd (-extents.y_bearing + 1))
  let stride := src.surface_stride width height
  let packed := pack_glyph data stride width.toNat height.toNat
  { cr := cr, len := len, width := width, height := height,
    item := OutItem.glyph_data font_name_suffix (c_int size) codepoint packed.emitted }

/-- The function `render_glyph`.  Its array `utf8` starts uninitialised; the
library then reads a C string from it, which has no defined behaviour when no
branch of the `if` chain stored a terminator. -/
def render_glyph (rnd : ℚ → ℚ) (src : OutlineSource) (cr : Cairo) (size : ℚ)
    (codepoint : Nat) (font_name_suffix : String) : Except Fault RenderResult :=
  let cr : Cairo := { cr with font_size := size }
  let enc := render_glyph_utf8 codepoint Utf8Buf.uninit
  match c_string enc.1 with
  | Except.error f => Except.error f
  | Except.ok text =>
    Except.ok (render_glyph_body rnd src cr size codepoint font_name_suffix enc.2 text)

/-- The first loop over the code points. -/
def render_glyphs (rnd : ℚ → ℚ) (src : OutlineSource) (size : Int) (name : String) :
    List Nat → Cairo → Except Fault (Cairo × List RenderResult)
  | [], cr => Except.ok (cr, [])
  | cp :: cps, cr =>
    match render_glyph rnd src cr (size : ℚ) cp name with
    | Except.error f => Except.error f
    | Except.ok r =>
      match render_glyphs rnd src size name cps r.cr with
      | Except.error f => Except.error f
      | Except.ok rest => Except.ok (rest.1, r :: rest.2)

/-- Lines 167-174 of `generate_font`, from `cairo_text_extents` on, where
`text` is the C string the library reads from `utf8`.  The difference
`bearing - 1` is a `double` difference, rounded by `rnd` before `(int)`. -/
def generate_font_entry (rnd : ℚ → ℚ) (src : OutlineSource) (cr : Cairo) (name : String)
    (size : Int) (cp : Nat) (text : List Nat) : Glyph :=
  let extents := src.text_extents text cr.font_size
  let width := (generate_font_dims extents size).1
  let height := (generate_font_dims extents size).2
  { cp := cp, width := width, height := height,
    advance_x := c_int extents.x_advance,
    bearing_x := c_int (rnd (extents.x_bearing - 1)),
    bearing_y := c_int (rnd (extents.y_bearing - 1)),
    data_name := name, data_size := size, data_cp := cp }

/-- Body of the second loop: the `Glyph` entry for one code point. -/
def generate_font_glyph (rnd : ℚ → ℚ) (src : OutlineSource) (cr : Cairo) (name : String)
    (size : Int) (cp : Nat) : Except Fault Glyph :=
  let enc := generate_font_utf8 cp Utf8Buf.uninit
  match c_string enc with
  | Except.error f => Except.error f
  | Except.ok text => Except.ok (generate_font_entry rnd src cr name size cp text)

/-- The second loop over the code points. -/
def generate_font_glyphs (rnd : ℚ → ℚ) (src : OutlineSource) (cr : Cairo) (name : String)
    (size : Int) : List Nat → Except Fault (List Glyph)
  | [] => Except.ok []
  | cp :: cps =>
    match generate_font_glyph rnd src cr name size cp with
    | Except.error f => Except.error f
    | Except.ok g =>
      match generate_font_glyphs rnd src cr name size cps with
      | Except.error f => Except.error f
      | Except.ok gs => Except.ok (g :: gs)

/-- What one iteration of the loop over the sizes produces. -/
structure SizeRun where
  cr : Cairo
  renders : List RenderResult
  glyphs : List Glyph
  out : List OutItem

/-- Body of the loop over the sizes in `generate_font`. -/
def generate_font_size (rnd : ℚ → ℚ) (src : OutlineSource) (cr : Cairo) (name : String)
    (size : Int) (codepoints : List Nat) : Except Fault SizeRun :=
  let cr : Cairo := { cr with font_size := (size : ℚ) }
  let font_extents := src.font_extents cr.font_size
  match render_glyphs rnd src size name codepoints cr with
  | Except.error f => Except.error f
  | Except.ok first =>
    match generate_font_glyphs rnd src first.1 name size codepoints with
    | Except.error f => Except.error f
    | Except.ok glyphs =>
      Except.ok
        { cr := first.1, renders := first.2, glyphs := glyphs,
          out := [OutItem.font_comment name size] ++ first.2.map (fun r => r.item) ++
            [OutItem.init_open name size] ++ glyphs.map OutItem.glyph_put ++
            [OutItem.init_return (c_int font_extents.height) (c_int font_extents.ascent)
              (c_int font_extents.descent)] }

/-- The loop over the sizes. -/
def generate_font_sizes (rnd : ℚ → ℚ) (src : OutlineSource) (name : String)
    (codepoints : List Nat) : List Int → Cairo → Except Fault (List OutItem)
  | [], _ => Except.ok []
  | size :: sizes, cr =>
    match generate_font_size rnd src cr name size codepoints with
    | Except.error f => Except.error f
    | Except.ok run =>
      match generate_font_sizes rnd src name codepoints sizes run.cr with
      | Except.error f => Except.error f
      | Except.ok rest => Except.ok (run.out ++ rest)

/-- The function `generate_font`; `face` is `none` when `FT_New_Face` fails,
in which case the function returns having printed nothing. -/
def generate_font (rnd : ℚ → ℚ) (face : Option OutlineSource) (name : String)
    (sizes : List Int) (codepoints : List Nat) (cr : Cairo) : Except Fault (List OutItem) :=
  match face with
  | none => Except.ok []
  | some src => generate_font_sizes rnd src name codepoints sizes cr

/-- An outline source that reports the same extents for every text and fills
every surface with the same coverage value; stride equals the width. -/
def flat_source (e : TextExtents) (alpha : Nat) : OutlineSource :=
  { text_extents := fun _ _ => e,
    font_extents := fun _ => ⟨0, 0, 0⟩,
    surface_stride := fun w _ => w.toNat,
    surface_data := fun _ _ _ _ _ _ _ => alpha }

/-! ### The loops visit the samples in row-major order -/

theorem pack_rows_eq_pack_list (data : Nat → Nat) (stride width height : Nat) (s : PackState) :
    pack_rows data stride width height s = pack_list s (samples data stride width height) := by
  unfold pack_rows samples pack_list
  generalize List.range height = ys
  induction ys generalizing s with
  | nil => rfl
  | cons y ys ih =>
    simp only [List.foldl_cons, List.flatMap_cons, List.foldl_append]
    rw [ih]
    simp [pack_row, List.foldl_map]

theorem samples_succ (data : Nat → Nat) (stride width height : Nat) :
    samples data stride width (height + 1) =
      samples data stride width height ++
        (List.range width).map (fun x => data (height * stride + x)) := by
  simp [samples, List.range_succ, List.flatMap_append]

theorem samples_length (data : Nat → Nat) (stride width height : Nat) :
    (samples data stride width height).length = height * width := by
  induction height with
  | zero => simp [samples]
  | succ h ih => rw [samples_succ, List.length_append, ih]; simp [Nat.succ_mul]

theorem samples_getD (data : Nat → Nat) (stride width height x y : Nat)
    (hx : x < width) (hy : y < height) :
    (samples data stride width height).getD (y * width + x) 0 = data (y * stride + x) := by
  induction height with
  | zero => omega
  | succ h ih =>
    rw [samples_succ]
    by_cases hyh : y < h
    · have hlt : y * width + x < (samples data stride width h).length := by
        rw [samples_length]
        have : (y + 1) * width ≤ h * width := Nat.mul_le_mul_right _ hyh
        rw [Nat.succ_mul] at this
        omega
      rw [List.getD_append _ _ _ _ hlt]
      exact ih hyh
    · have hyeq : y = h := by omega
      subst hyeq
      rw [List.getD_append_right _ _ _ _ (by rw [samples_length]; omega), samples_length]
      have : y * width + x - y * width = x := by omega
      rw [this, List.getD_eq_getElem _ _ (by simpa using hx)]
      simp

/-! ### The loop invariant -/

theorem testBit_set_bit (bv r i alpha : Nat) :
    (if alpha > 128 then bv ||| (1 <<< (7 - r)) else bv).testBit i =
      (bv.testBit i || (decide (alpha > 128) && decide (i = 7 - r))) := by
  by_cases h : alpha > 128
  · simp only [h, if_true, decide_True, Bool.true_and, Nat.testBit_or, Nat.one_shiftLeft,
      Nat.testBit_two_pow]
    congr 1
    exact decide_eq_decide.mpr ⟨fun h => h.symm, fun h => h.symm⟩
  · simp [h]

theorem packInv_init : PackInv [] pack_init := by
  constructor <;> simp [pack_init]

theorem packInv_step (l : List Nat) (s : PackState) (a : Nat) (h : PackInv l s) :
    PackInv (l ++ [a]) (pack_pixel s a) := by
  obtain ⟨hb, hc, hl, hbits, hcur, hbytes⟩ := h
  have hlen : (l ++ [a]).length = l.length + 1 := by simp
  have hnew : ∀ i, (if a > 128 then s.byte_val ||| (1 <<< (7 - s.bit_idx))
      else s.byte_val).testBit i =
        ((decide (i < 8 ∧ 7 - i < l.length % 8) &&
          decide (l.getD (8 * (l.length / 8) + (7 - i)) 0 > 128)) ||
          (decide (a > 128) && decide (i = 7 - l.length % 8))) := by
    intro i
    rw [testBit_set_bit, hcur i, hb]
  have hlt256 : (if a > 128 then s.byte_val ||| (1 <<< (7 - s.bit_idx))
      else s.byte_val) < 256 := by
    apply Nat.lt_pow_two_of_testBit (n := 8)
    intro i hi
    rw [hnew i]
    have h1 : ¬ (i < 8 ∧ 7 - i < l.length % 8) := by omega
    have h2 : ¬ (i = 7 - l.length % 8) := by omega
    simp [h1, h2]
  by_cases h8 : s.bit_idx + 1 = 8
  · have hr : l.length % 8 = 7 := by omega
    have hq : (l.length + 1) / 8 = l.length / 8 + 1 := by omega
    have hr2 : (l.length + 1) % 8 = 0 := by omega
    unfold pack_pixel
    simp only [h8, if_true]
    refine ⟨?_, ?_, ?_, ?_, ?_, ?_⟩
    · simp only [hlen, hr2]
    · simp only [hlen, hq, hc]
    · simp only [List.length_append, List.length_singleton, hlen, hq, hl]
    · intro k hk
      rw [hlen, hq] at hk
      by_cases hk2 : k < 8 * (l.length / 8)
      · have hk3 : k / 8 < s.emitted.length := by rw [hl]; omega
        have hk4 : k < l.length := by omega
        rw [List.getD_append _ _ _ _ hk3, List.getD_append _ _ _ _ hk4]
        exact hbits k hk2
      · have hk3 : k / 8 = s.emitted.length := by rw [hl]; omega
        rw [hk3, List.getD_append_right _ _ _ _ (le_refl _)]
        simp only [Nat.sub_self, List.getD_cons_zero]
        rw [hnew]
        by_cases hk7 : k % 8 = 7
        · have hkn : k = l.length := by omega
          have h1 : ¬ (7 - k % 8 < 8 ∧ 7 - (7 - k % 8) < l.length % 8) := by omega
          have h2 : 7 - k % 8 = 7 - l.length % 8 := by omega
          rw [hkn, List.getD_append_right _ _ _ _ (le_refl _)]
          simp [h2, hr]
        · have hk4 : k < l.length := by omega
          have h1 : (7 - k % 8 < 8 ∧ 7 - (7 - k % 8) < l.length % 8) := by omega
          have h2 : ¬ (7 - k % 8 = 7 - l.length % 8) := by omega
          have h3 : 8 * (l.length / 8) + (7 - (7 - k % 8)) = k := by omega
          rw [List.getD_append _ _ _ _ hk4]
          simp [h1, h2, h3]
    · intro i
      simp [hlen, hr2]
    · intro b hbm
      rcases List.mem_append.mp hbm with hbm | hbm
      · exact hbytes b hbm
      · rw [List.mem_singleton.mp hbm]; exact hlt256
  · have hr : l.length % 8 < 7 := by omega
    have hq : (l.length + 1) / 8 = l.length / 8 := by omega
    have hr2 : (l.length + 1) % 8 = l.length % 8 + 1 := by omega
    unfold pack_pixel
    simp only [h8, if_false]
    refine ⟨?_, ?_, ?_, ?_, ?_, ?_⟩
    · simp only [hlen, hr2, hb]
    · simp only [hlen, hq, hc]
    · simp only [hlen, hq, hl]
    · intro k hk
      rw [hlen, hq] at hk
      have hk4 : k < l.length := by omega
      rw [List.getD_append _ _ _ _ hk4]
      exact hbits k hk
    · intro i
      rw [hnew i, hlen, hq, hr2]
      by_cases hi : i < 8 ∧ 7 - i < l.length % 8
      · have h1 : i < 8 ∧ 7 - i < l.length % 8 + 1 := by omega
        have h2 : ¬ (i = 7 - l.length % 8) := by omega
        have h3 : 8 * (l.length / 8) + (7 - i) < l.length := by omega
        rw [List.getD_append _ _ _ _ h3]
        simp [hi, h1, h2]
      · by_cases hi2 : i = 7 - l.length % 8
        · have h1 : i < 8 ∧ 7 - i < l.length % 8 + 1 := by omega
          have h3 : 8 * (l.length / 8) + (7 - i) = l.length := by omega
          rw [h3, List.getD_append_right _ _ _ _ (le_refl _), decide_eq_false hi,
            decide_eq_true h1, decide_eq_true hi2]
          simp
        · have h1 : ¬ (i < 8 ∧ 7 - i < l.length % 8 + 1) := by omega
          simp [hi, h1, hi2]
    · exact hbytes

theorem packInv_pack_list (l : List Nat) : PackInv l (pack_list pack_init l) := by
  induction l using List.reverseRecOn with
  | nil => exact packInv_init
  | append_singleton l a ih =>
    have : pack_list pack_init (l ++ [a]) = pack_pixel (pack_list pack_init l) a := by
      simp [pack_list, List.foldl_append]
    rw [this]
    exact packInv_step l _ a ih

theorem pack_glyph_eq (data : Nat → Nat) (stride width height : Nat) :
    pack_glyph data stride width height =
      pack_flush (pack_list pack_init (samples data stride width height)) := by
  rw [pack_glyph, pack_rows_eq_pack_list]

theorem samples_congr (data data' : Nat → Nat) (stride stride' width height : Nat)
    (h : ∀ x y, x < width → y < height → data' (y * stride' + x) = data (y * stride + x)) :
    samples data' stride' width height = samples data stride width height := by
  induction height with
  | zero => simp [samples]
  | succ n ih =>
    rw [samples_succ, samples_succ, ih (fun x y hx hy => h x y hx (by omega))]
    congr 1
    apply List.map_congr_left
    intro x hx
    exact h x n (List.mem_range.mp hx) (by omega)

/-- What the flushed output holds, for an arbitrary list of samples. -/
theorem pack_flush_bits (l : List Nat) (k : Nat) (hk : k < l.length) :
    k / 8 < (pack_flush (pack_list pack_init l)).emitted.length ∧
    ((pack_flush (pack_list pack_init l)).emitted.getD (k / 8) 0).testBit (7 - k % 8) =
      decide (l.getD k 0 > 128) := by
  obtain ⟨hb, _, hl, hbits, hcur, _⟩ := packInv_pack_list l
  by_cases hr : l.length % 8 = 0
  · have hf : pack_flush (pack_list pack_init l) = pack_list pack_init l := by
      simp [pack_flush, hb, hr]
    rw [hf]
    have hk2 : k < 8 * (l.length / 8) := by omega
    exact ⟨by rw [hl]; omega, hbits k hk2⟩
  · have hf : (pack_flush (pack_list pack_init l)).emitted =
        (pack_list pack_init l).emitted ++ [(pack_list pack_init l).byte_val] := by
      have : (pack_list pack_init l).bit_idx > 0 := by omega
      simp [pack_flush, this]
    rw [hf]
    refine ⟨by simp only [List.length_append, List.length_singleton, hl]; omega, ?_⟩
    by_cases hk2 : k < 8 * (l.length / 8)
    · rw [List.getD_append _ _ _ _ (by rw [hl]; omega)]
      exact hbits k hk2
    · have hk3 : k / 8 = (pack_list pack_init l).emitted.length := by rw [hl]; omega
      rw [hk3, List.getD_append_right _ _ _ _ (le_refl _)]
      simp only [Nat.sub_self, List.getD_cons_zero]
      rw [hcur]
      have h1 : 7 - k % 8 < 8 ∧ 7 - (7 - k % 8) < l.length % 8 := by omega
      have h3 : 8 * (l.length / 8) + (7 - (7 - k % 8)) = k := by omega
      rw [decide_eq_true h1, h3]
      simp

theorem pack_flush_count (l : List Nat) :
    (pack_flush (pack_list pack_init l)).count = (l.length + 7) / 8 ∧
    (pack_flush (pack_list pack_init l)).emitted.length = (l.length + 7) / 8 := by
  obtain ⟨hb, hc, hl, _, _, _⟩ := packInv_pack_list l
  by_cases hr : l.length % 8 = 0
  · have hf : pack_flush (pack_list pack_init l) = pack_list pack_init l := by
      simp [pack_flush, hb, hr]
    rw [hf, hc, hl]
    omega
  · have hpos : (pack_list pack_init l).bit_idx > 0 := by omega
    have h1 : (pack_flush (pack_list pack_init l)).count = (pack_list pack_init l).count + 1 := by
      simp [pack_flush, hpos]
    have h2 : (pack_flush (pack_list pack_init l)).emitted =
        (pack_list pack_init l).emitted ++ [(pack_list pack_init l).byte_val] := by
      simp [pack_flush, hpos]
    rw [h1, h2, List.length_append, List.length_singleton, hc, hl]
    omega

theorem pack_flush_last (l : List Nat) (hr : l.length % 8 ≠ 0) :
    (pack_flush (pack_list pack_init l)).emitted.getLast? =
        some (pack_list pack_init l).byte_val ∧
      (pack_list pack_init l).byte_val % 2 ^ (8 - l.length % 8) = 0 := by
  obtain ⟨hb, _, _, _, hcur, _⟩ := packInv_pack_list l
  have hpos : (pack_list pack_init l).bit_idx > 0 := by omega
  constructor
  · simp [pack_flush, hpos]
  · apply Nat.eq_of_testBit_eq
    intro i
    rw [Nat.testBit_mod_two_pow, hcur, Nat.zero_testBit]
    by_cases hi : i < 8 - l.length % 8
    · have : ¬ (i < 8 ∧ 7 - i < l.length % 8) := by omega
      simp [this]
    · simp [hi]

theorem nat_ceil_div_eight (n : Nat) : ⌈(n : ℚ) / 8⌉₊ = (n + 7) / 8 := by
  by_cases hn : n = 0
  · subst hn; simp
  · have hpos : (n + 7) / 8 ≠ 0 := by omega
    rw [Nat.ceil_eq_iff hpos]
    constructor
    · rw [lt_div_iff₀ (by norm_num)]
      have : ((n + 7) / 8 - 1) * 8 < n := by omega
      exact_mod_cast this
    · rw [div_le_iff₀ (by norm_num)]
      have : n ≤ (n + 7) / 8 * 8 := by omega
      exact_mod_cast this

/-! ### Encoding lemmas -/

theorem or_C0 (x : Nat) (h : x < 32) : 0xC0 ||| x = 192 + x := by
  have := Nat.mul_add_lt_is_or (i := 5) h 6
  simpa using this.symm

theorem or_E0 (x : Nat) (h : x < 16) : 0xE0 ||| x = 224 + x := by
  have := Nat.mul_add_lt_is_or (i := 4) h 14
  simpa using this.symm

theorem or_80 (x : Nat) (h : x < 64) : 0x80 ||| x = 128 + x := by
  have := Nat.mul_add_lt_is_or (i := 6) h 2
  simpa using this.symm

theorem and_3F (x : Nat) : x &&& 0x3F = x % 64 :=
  Nat.and_pow_two_sub_one_eq_mod x 6

theorem shr_6 (x : Nat) : x >>> 6 = x / 64 := by
  simp [Nat.shiftRight_eq_div_pow]

theorem shr_12 (x : Nat) : x >>> 12 = x / 4096 := by
  simp [Nat.shiftRight_eq_div_pow]

/-- The array after the two-byte branch, in arithmetic form. -/
theorem two_byte_values (cp : Nat) (h : cp < 0x800) :
    to_char (0xC0 ||| (cp >>> 6)) = 192 + cp / 64 ∧
    to_char (0x80 ||| (cp &&& 0x3F)) = 128 + cp % 64 := by
  rw [shr_6, and_3F, or_C0 _ (by omega), or_80 _ (by omega)]
  unfold to_char
  omega

/-- The array after the three-byte branch, in arithmetic form. -/
theorem three_byte_values (cp : Nat) (h : cp < 0x10000) :
    to_char (0xE0 ||| (cp >>> 12)) = 224 + cp / 4096 ∧
    to_char (0x80 ||| ((cp >>> 6) &&& 0x3F)) = 128 + cp / 64 % 64 ∧
    to_char (0x80 ||| (cp &&& 0x3F)) = 128 + cp % 64 := by
  rw [shr_6, shr_12, and_3F, and_3F, or_E0 _ (by omega), or_80 _ (by omega),
    or_80 _ (by omega)]
  unfold to_char
  omega

/-- Below `0x10000` the two `if` chains write the same bytes. -/
theorem generate_font_utf8_eq (cp : Nat) (u : Utf8Buf) (h : cp < 0x10000) :
    generate_font_utf8 cp u = (render_glyph_utf8 cp u).1 := by
  unfold generate_font_utf8 render_glyph_utf8
  by_cases h1 : cp < 0x80
  · simp [h1]
  · by_cases h2 : cp < 0x800
    · simp [h1, h2]
    · simp [h1, h2, h]

/-- Once a terminator has been stored, the string read is the bytes before the
first zero, whatever the elements after the terminator are. -/
theorem read_c_string_terminated (vs : List Nat) (rest : List (Option Nat)) :
    read_c_string (vs.map some ++ some 0 :: rest) =
      Except.ok (vs.takeWhile (fun b => b ≠ 0)) := by
  induction vs with
  | nil => simp [read_c_string]
  | cons v vs ih =>
    have ih2 : read_c_string ((List.map some vs).append (some 0 :: rest)) =
        Except.ok (vs.takeWhile (fun b => b ≠ 0)) := ih
    simp only [List.map_cons, List.cons_append, read_c_string]
    rw [ih2]
    by_cases hv : v = 0
    · simp [hv, List.takeWhile]
    · simp [hv, List.takeWhile]

/-- The string the second loop of `generate_font` hands to the library is
defined for every code point: each branch of its `if` chain stores a
terminator. -/
theorem c_string_generate_font_utf8 (cp : Nat) (u : Utf8Buf) :
    ∃ text, c_string (generate_font_utf8 cp u) = Except.ok text := by
  unfold generate_font_utf8 c_string Utf8Buf.toList
  by_cases h1 : cp < 0x80
  · simp only [h1, if_true]
    exact ⟨_, read_c_string_terminated [to_char cp] [u.b2, u.b3, u.b4]⟩
  · by_cases h2 : cp < 0x800
    · simp only [h1, h2, if_true, if_false]
      exact ⟨_, read_c_string_terminated
        [to_char (0xC0 ||| (cp >>> 6)), to_char (0x80 ||| (cp &&& 0x3F))] [u.b3, u.b4]⟩
    · simp only [h1, h2, if_false]
      exact ⟨_, read_c_string_terminated
        [to_char (0xE0 ||| (cp >>> 12)), to_char (0x80 ||| ((cp >>> 6) &&& 0x3F)),
          to_char (0x80 ||| (cp &&& 0x3F))] [u.b4]⟩

/-- Below `0x10000` both passes hand the same string to the library. -/
theorem c_string_render_glyph_utf8 (cp : Nat) (u : Utf8Buf) (h : cp < 0x10000) :
    c_string (render_glyph_utf8 cp u).1 = c_string (generate_font_utf8 cp u) := by
  rw [generate_font_utf8_eq cp u h]

/-- C4. For every code point below `0x10000`, the bytes `render_glyph` stores in
`utf8[0 .. len)` are the standard variable-length encoding of the code point
(one unit `0xxxxxxx` below `0x80`, two units `110xxxxx 10xxxxxx` below `0x800`,
three units `1110xxxx 10xxxxxx 10xxxxxx` otherwise), each unit is a byte, the
element after them holds the terminating zero, and decoding gives the code
point back; this holds whatever the array held before. -/
theorem render_glyph_utf8_standard (cp : Nat) (u : Utf8Buf) (h : cp < 0x10000) :
    ((render_glyph_utf8 cp u).1.toList.take (render_glyph_utf8 cp u).2 =
      List.map some
        (if cp < 0x80 then [cp]
         else if cp < 0x800 then [0xC0 + cp / 64, 0x80 + cp % 64]
         else [0xE0 + cp / 4096, 0x80 + cp / 64 % 64, 0x80 + cp % 64])) ∧
    (∀ b ∈ ((render_glyph_utf8 cp u).1.toList.take (render_glyph_utf8 cp u).2).reduceOption,
      b < 256) ∧
    (render_glyph_utf8 cp u).1.toList.getD (render_glyph_utf8 cp u).2 none = some 0 ∧
    utf8_decode
        ((render_glyph_utf8 cp u).1.toList.take (render_glyph_utf8 cp u).2).reduceOption =
      some cp := by
  unfold render_glyph_utf8 Utf8Buf.toList
  by_cases h1 : cp < 0x80
  · have hc : to_char cp = cp := by unfold to_char; omega
    simp only [h1, if_true, hc, List.take_succ_cons, List.take_zero, List.map_cons,
      List.map_nil, List.reduceOption_cons_of_some, List.reduceOption_nil]
    refine ⟨by simp, ?_, by simp, ?_⟩
    · intro b hb
      simp only [List.mem_singleton] at hb
      omega
    · have : cp / 128 = 0 := by omega
      simp [utf8_decode, this]
  · by_cases h2 : cp < 0x800
    · obtain ⟨e0, e1⟩ := two_byte_values cp h2
      simp only [h1, h2, if_true, if_false, e0, e1, List.take_succ_cons, List.take_zero,
        List.map_cons, List.map_nil, List.reduceOption_cons_of_some, List.reduceOption_nil]
      refine ⟨by simp, ?_, by simp, ?_⟩
      · intro b hb
        simp only [List.mem_cons, List.mem_singleton, List.not_mem_nil, or_false] at hb
        omega
      · have k1 : (192 + cp / 64) / 32 = 6 := by omega
        have k2 : (128 + cp % 64) / 64 = 2 := by omega
        have k3 : (192 + cp / 64) % 32 * 64 + (128 + cp % 64) % 64 = cp := by omega
        rw [utf8_decode, if_pos ⟨k1, k2⟩, k3]
    · obtain ⟨e0, e1, e2⟩ := three_byte_values cp h
      simp only [h1, h2, h, if_true, if_false, e0, e1, e2, List.take_succ_cons, List.take_zero,
        List.map_cons, List.map_nil, List.reduceOption_cons_of_some, List.reduceOption_nil]
      refine ⟨by simp, ?_, by simp, ?_⟩
      · intro b hb
        simp only [List.mem_cons, List.mem_singleton, List.not_mem_nil, or_false] at hb
        omega
      · have k1 : (224 + cp / 4096) / 16 = 14 := by omega
        have k2 : (128 + cp / 64 % 64) / 64 = 2 := by omega
        have k3 : (128 + cp % 64) / 64 = 2 := by omega
        have k4 : (224 + cp / 4096) % 16 * 4096 + (128 + cp / 64 % 64) % 64 * 64 +
            (128 + cp % 64) % 64 = cp := by omega
        rw [utf8_decode, if_pos ⟨k1, k2, k3⟩, k4]

/-- Witness for C4 at the degree sign `0xB0`, on the array as declared. -/
theorem render_glyph_utf8_standard_witness :
    (render_glyph_utf8 0xB0 Utf8Buf.uninit).1.toList.take
        (render_glyph_utf8 0xB0 Utf8Buf.uninit).2 = [some 0xC2, some 0xB0] ∧
    utf8_decode [0xC2, 0xB0] = some 0xB0 :=
  ⟨(render_glyph_utf8_standard 0xB0 Utf8Buf.uninit (by decide)).1, by decide⟩

/-! ### Conversion to `int` and the dimensions -/

theorem c_int_of_nonneg (d : ℚ) (h : 0 ≤ d) : c_int d = ⌊d⌋ := by
  simp [c_int, h]

theorem c_int_of_neg (d : ℚ) (h : d < 0) : c_int d = ⌈d⌉ := by
  simp [c_int, not_le.mpr h]

theorem c_int_intCast (n : Int) : c_int (n : ℚ) = n := by
  unfold c_int
  split <;> simp

theorem c_int_nonneg (d : ℚ) (h : 0 ≤ d) : 0 ≤ c_int d := by
  rw [c_int_of_nonneg d h]
  exact Int.floor_nonneg.mpr h

theorem c_int_pos_iff (d : ℚ) (h : 0 ≤ d) : 0 < c_int d ↔ 1 ≤ d := by
  rw [c_int_of_nonneg d h, Int.floor_pos]

theorem c_int_zero : c_int 0 = 0 := by
  simp [c_int]

theorem c_int_three_quarters : c_int (3 / 4) = 0 := by
  rw [c_int_of_nonneg _ (by norm_num)]
  norm_num

theorem c_int_half : c_int (1 / 2) = 0 := by
  rw [c_int_of_nonneg _ (by norm_num)]
  norm_num

/-- With an `int` size handed over as a `double`, the two computations of the
dimensions agree on every extents record. -/
theorem render_glyph_dims_eq_generate_font_dims (e : TextExtents) (size : Int) :
    render_glyph_dims e (size : ℚ) = generate_font_dims e size := by
  simp only [render_glyph_dims, generate_font_dims, render_glyph_provisional,
    generate_font_provisional, c_int_intCast]

/-- C6 (as amended). For non-negative ink width and height, the dimensions
before the `<= 2` tests are `floor(ink_width) + 2` and `floor(ink_height) + 2`,
in `render_glyph` and in `generate_font` alike: the conversion to `int` drops the
fraction, it does not round up. -/
theorem provisional_dims_floor (e : TextExtents) (hw : 0 ≤ e.width) (hh : 0 ≤ e.height) :
    render_glyph_provisional e = (⌊e.width⌋ + 2, ⌊e.height⌋ + 2) ∧
    generate_font_provisional e = (⌊e.width⌋ + 2, ⌊e.height⌋ + 2) := by
  simp [render_glyph_provisional, generate_font_provisional, c_int_of_nonneg, hw, hh]

/-- Witness for C6 (as amended): ink 7/2 by 5 gives 5 by 7. -/
theorem provisional_dims_floor_witness :
    render_glyph_provisional ⟨0, 0, 7 / 2, 5, 4, 0⟩ = (⌊(7 / 2 : ℚ)⌋ + 2, ⌊(5 : ℚ)⌋ + 2) ∧
    generate_font_provisional ⟨0, 0, 7 / 2, 5, 4, 0⟩ =
      (⌊(7 / 2 : ℚ)⌋ + 2, ⌊(5 : ℚ)⌋ + 2) :=
  provisional_dims_floor ⟨0, 0, 7 / 2, 5, 4, 0⟩ (by norm_num) (by norm_num)

/-- C6 fails as stated: ink width 1/2 gives provisional width 2, while
`ceil(1/2) + 2 = 3`. -/
theorem provisional_dims_not_ceil :
    (render_glyph_provisional ⟨0, 0, 1 / 2, 1 / 2, 4, 0⟩).1 = 2 ∧
    ⌈(1 / 2 : ℚ)⌉ + 2 = 3 ∧
    (render_glyph_provisional ⟨0, 0, 1 / 2, 1 / 2, 4, 0⟩).1 ≠ ⌈(1 / 2 : ℚ)⌉ + 2 := by
  have hc : ⌈(1 / 2 : ℚ)⌉ = 1 := by
    rw [Int.ceil_eq_iff]; norm_num
  have hp : (render_glyph_provisional ⟨0, 0, 1 / 2, 1 / 2, 4, 0⟩).1 = 2 := by
    simp only [render_glyph_provisional, c_int_half]
    rfl
  refine ⟨hp, by rw [hc]; rfl, ?_⟩
  rw [hp, hc]
  decide

/-- C7 (as amended). For a zero-ink glyph with non-negative advance, the final
dimensions are `width = floor(advance_x)` and `height = pixel_size`, in
`render_glyph` (called with the integer size) and in `generate_font` alike. -/
theorem zero_ink_dims (e : TextExtents) (size : Int) (hw : e.width = 0) (hh : e.height = 0)
    (ha : 0 ≤ e.x_advance) :
    render_glyph_dims e (size : ℚ) = (⌊e.x_advance⌋, size) ∧
    generate_font_dims e size = (⌊e.x_advance⌋, size) := by
  rw [render_glyph_dims_eq_generate_font_dims]
  simp [generate_font_dims, generate_font_provisional, hw, hh, c_int_zero,
    c_int_of_nonneg _ ha]

/-- Witness for C7 (as amended): the space at size 20 with advance 23/4. -/
theorem zero_ink_dims_witness :
    render_glyph_dims ⟨0, 0, 0, 0, 23 / 4, 0⟩ ((20 : Int) : ℚ) = (⌊(23 / 4 : ℚ)⌋, 20) ∧
    generate_font_dims ⟨0, 0, 0, 0, 23 / 4, 0⟩ 20 = (⌊(23 / 4 : ℚ)⌋, 20) :=
  zero_ink_dims ⟨0, 0, 0, 0, 23 / 4, 0⟩ 20 rfl rfl (by norm_num)

/-- C7 fails as stated: a zero-ink glyph with advance 3/4 gets width 0, while
`round(3/4) = 1`. -/
theorem zero_ink_width_not_round :
    (render_glyph_dims ⟨0, 0, 0, 0, 3 / 4, 0⟩ ((20 : Int) : ℚ)).1 = 0 ∧
    (generate_font_dims ⟨0, 0, 0, 0, 3 / 4, 0⟩ 20).1 = 0 ∧
    round (3 / 4 : ℚ) = 1 ∧
    (render_glyph_dims ⟨0, 0, 0, 0, 3 / 4, 0⟩ ((20 : Int) : ℚ)).1 ≠ round (3 / 4 : ℚ) := by
  have hr : round (3 / 4 : ℚ) = 1 := by norm_num [round_eq]
  have h1 : (render_glyph_dims ⟨0, 0, 0, 0, 3 / 4, 0⟩ ((20 : Int) : ℚ)).1 = 0 := by
    simp [render_glyph_dims, render_glyph_provisional, c_int_zero, c_int_three_quarters]
  refine ⟨h1, ?_, hr, ?_⟩
  · simp [generate_font_dims, generate_font_provisional, c_int_zero, c_int_three_quarters]
  · rw [h1, hr]
    decide

/-- C8 (as amended). With non-negative ink width, ink height and advance and a
size of at least 1, the final height is strictly positive and the final width
is non-negative; the width is strictly positive exactly when the ink width or
the advance is at least 1. -/
theorem final_dims_sign (e : TextExtents) (size : ℚ) (hw : 0 ≤ e.width) (hh : 0 ≤ e.height)
    (ha : 0 ≤ e.x_advance) (hs : 1 ≤ size) :
    0 < (render_glyph_dims e size).2 ∧ 0 ≤ (render_glyph_dims e size).1 ∧
    (0 < (render_glyph_dims e size).1 ↔ (1 ≤ e.width ∨ 1 ≤ e.x_advance)) := by
  have h1 := c_int_nonneg _ hw
  have h2 := c_int_nonneg _ hh
  have h3 := c_int_nonneg _ ha
  have h4 := (c_int_pos_iff size (by linarith)).mpr hs
  have h5 := c_int_pos_iff _ hw
  have h6 := c_int_pos_iff _ ha
  simp only [render_glyph_dims, render_glyph_provisional]
  refine ⟨?_, ?_, ?_⟩
  · split <;> omega
  · split <;> omega
  · split
    · rw [h6]
      constructor
      · exact fun h => Or.inr h
      · rintro (h | h)
        · have := h5.mpr h
          omega
        · exact h
    · constructor
      · intro _
        exact Or.inl (h5.mp (by omega))
      · intro _
        omega

/-- Witness for C8 (as amended): ink 7/2 by 5, advance 4, size 20. -/
theorem final_dims_sign_witness :
    0 < (render_glyph_dims ⟨0, 0, 7 / 2, 5, 4, 0⟩ 20).2 ∧
    0 ≤ (render_glyph_dims ⟨0, 0, 7 / 2, 5, 4, 0⟩ 20).1 ∧
    (0 < (render_glyph_dims ⟨0, 0, 7 / 2, 5, 4, 0⟩ 20).1 ↔
      ((1 : ℚ) ≤ 7 / 2 ∨ (1 : ℚ) ≤ 4)) :=
  final_dims_sign ⟨0, 0, 7 / 2, 5, 4, 0⟩ 20 (by norm_num) (by norm_num) (by norm_num)
    (by norm_num)

/-- C8 fails as stated: a zero-ink glyph with advance 0 at size 1 gets width 0. -/
theorem final_width_zero :
    render_glyph_dims ⟨0, 0, 0, 0, 0, 0⟩ 1 = (0, 1) ∧
    ¬ (0 < (render_glyph_dims ⟨0, 0, 0, 0, 0, 0⟩ 1).1) := by
  have h1 : c_int 1 = 1 := by simpa using c_int_intCast 1
  have h : render_glyph_dims ⟨0, 0, 0, 0, 0, 0⟩ 1 = (0, 1) := by
    simp [render_glyph_dims, render_glyph_provisional, c_int_zero, h1]
  exact ⟨h, by rw [h]; decide⟩

/-! ### Rounding of `double` results -/

theorem c_int_sub_one (b : ℚ) :
    c_int (b - 1) = if 1 ≤ b then ⌊b⌋ - 1 else ⌈b⌉ - 1 := by
  unfold c_int
  by_cases h : 1 ≤ b
  · have h0 : (0 : ℚ) ≤ b - 1 := by linarith
    simp [h, h0]
  · have h0 : ¬ (0 : ℚ) ≤ b - 1 := by
      intro h0
      exact h (by linarith)
    simp [h, h0]

/-- When the difference `b - 1` is delivered exactly, truncating it gives
`floor(b) - 1` from 1 on and `ceil(b) - 1` below 1. -/
theorem c_int_rnd_sub_one_exact (rnd : ℚ → ℚ) (b : ℚ) (hex : rnd (b - 1) = b - 1) :
    c_int (rnd (b - 1)) = if 1 ≤ b then ⌊b⌋ - 1 else ⌈b⌉ - 1 := by
  rw [hex, c_int_sub_one]

/-- When the difference `b - 1` is rounded, truncating it gives one of two
neighbouring integers. -/
theorem c_int_rnd_sub_one_bounds (rnd : ℚ → ℚ) (hr : IsDoubleRounding rnd) (b : ℚ)
    (hb : |b| ≤ 2 ^ 52) :
    (1 ≤ b → c_int (rnd (b - 1)) = ⌊b⌋ - 1 ∨ c_int (rnd (b - 1)) = ⌊b⌋) ∧
    (b < 1 → c_int (rnd (b - 1)) = ⌈b⌉ - 2 ∨ c_int (rnd (b - 1)) = ⌈b⌉ - 1) := by
  obtain ⟨hmono, hint⟩ := hr
  obtain ⟨hb1, hb2⟩ := abs_le.mp hb
  constructor
  · intro h1
    have hn1 : (1 : Int) ≤ ⌊b⌋ := Int.le_floor.mpr (by simpa using h1)
    have hn2 : ((⌊b⌋ : Int) : ℚ) ≤ b := Int.floor_le b
    have hn3 : b < ((⌊b⌋ : Int) : ℚ) + 1 := Int.lt_floor_add_one b
    have hn4 : ⌊b⌋ ≤ 2 ^ 52 := by
      have : ((⌊b⌋ : Int) : ℚ) ≤ ((2 ^ 52 : Int) : ℚ) := by push_cast; linarith
      exact_mod_cast this
    have e1 : rnd (((⌊b⌋ - 1 : Int) : ℚ)) = ((⌊b⌋ - 1 : Int) : ℚ) :=
      hint _ (by rw [abs_le]; constructor <;> omega)
    have e2 : rnd ((⌊b⌋ : Int) : ℚ) = ((⌊b⌋ : Int) : ℚ) :=
      hint _ (by rw [abs_le]; constructor <;> omega)
    have l1 : ((⌊b⌋ - 1 : Int) : ℚ) ≤ rnd (b - 1) := by
      rw [← e1]
      apply hmono
      push_cast
      linarith
    have l2 : rnd (b - 1) ≤ ((⌊b⌋ : Int) : ℚ) := by
      rw [← e2]
      apply hmono
      linarith
    have hpos : (0 : ℚ) ≤ rnd (b - 1) := by
      have : (0 : ℚ) ≤ ((⌊b⌋ - 1 : Int) : ℚ) := by exact_mod_cast (by omega : (0 : Int) ≤ ⌊b⌋ - 1)
      linarith
    rw [c_int_of_nonneg _ hpos]
    have f1 : ⌊b⌋ - 1 ≤ ⌊rnd (b - 1)⌋ := Int.le_floor.mpr l1
    have f2 : ⌊rnd (b - 1)⌋ ≤ ⌊b⌋ := by
      have : ((⌊rnd (b - 1)⌋ : Int) : ℚ) ≤ ((⌊b⌋ : Int) : ℚ) :=
        le_trans (Int.floor_le _) l2
      exact_mod_cast this
    omega
  · intro h1
    have hm1 : ⌈b⌉ ≤ 1 := Int.ceil_le.mpr (by simpa using h1.le)
    have hm2 : b ≤ ((⌈b⌉ : Int) : ℚ) := Int.le_ceil b
    have hm3 : ((⌈b⌉ : Int) : ℚ) < b + 1 := Int.ceil_lt_add_one b
    have hm4 : -(2 ^ 52) ≤ ⌈b⌉ := by
      have : ((-(2 ^ 52) : Int) : ℚ) ≤ ((⌈b⌉ : Int) : ℚ) := by push_cast; linarith
      exact_mod_cast this
    have e1 : rnd (((⌈b⌉ - 2 : Int) : ℚ)) = ((⌈b⌉ - 2 : Int) : ℚ) :=
      hint _ (by rw [abs_le]; constructor <;> omega)
    have e2 : rnd (((⌈b⌉ - 1 : Int) : ℚ)) = ((⌈b⌉ - 1 : Int) : ℚ) :=
      hint _ (by rw [abs_le]; constructor <;> omega)
    have l1 : ((⌈b⌉ - 2 : Int) : ℚ) ≤ rnd (b - 1) := by
      rw [← e1]
      apply hmono
      push_cast
      linarith
    have l2 : rnd (b - 1) ≤ ((⌈b⌉ - 1 : Int) : ℚ) := by
      rw [← e2]
      apply hmono
      push_cast
      linarith
    have c1 : ⌈b⌉ - 2 ≤ ⌈rnd (b - 1)⌉ := by
      have : ((⌈b⌉ - 2 : Int) : ℚ) ≤ ((⌈rnd (b - 1)⌉ : Int) : ℚ) :=
        le_trans l1 (Int.le_ceil _)
      exact_mod_cast this
    have c2 : ⌈rnd (b - 1)⌉ ≤ ⌈b⌉ - 1 := Int.ceil_le.mpr l2
    by_cases hx : 0 ≤ rnd (b - 1)
    · have hm5 : (0 : ℚ) ≤ ((⌈b⌉ - 1 : Int) : ℚ) := le_trans hx l2
      have hm6 : (0 : Int) ≤ ⌈b⌉ - 1 := by exact_mod_cast hm5
      have hm7 : ⌈b⌉ = 1 := by omega
      have hx0 : rnd (b - 1) = 0 := by
        apply le_antisymm _ hx
        have : ((⌈b⌉ - 1 : Int) : ℚ) = 0 := by rw [hm7]; simp
        linarith
      rw [hx0, c_int_zero, hm7]
      right
      rfl
    · rw [c_int_of_neg _ (not_le.mp hx)]
      omega

theorem round_to_grid_isDoubleRounding (k : Nat) : IsDoubleRounding (round_to_grid k) := by
  have hk : (0 : ℚ) < 2 ^ k := by positivity
  constructor
  · intro a b hab
    unfold round_to_grid
    apply div_le_div_of_nonneg_right _ hk.le
    have : ⌊a * 2 ^ k + 1 / 2⌋ ≤ ⌊b * 2 ^ k + 1 / 2⌋ := by
      apply Int.floor_mono
      have := mul_le_mul_of_nonneg_right hab hk.le
      linarith
    exact_mod_cast this
  · intro n _
    unfold round_to_grid
    have : ⌊(n : ℚ) * 2 ^ k + 1 / 2⌋ = n * 2 ^ k := by
      rw [Int.floor_eq_iff]
      push_cast
      constructor <;> linarith
    rw [this]
    push_cast
    field_simp

theorem round_to_grid_quarter_sub_one : round_to_grid 52 (1 / 4 - 1) = -3 / 4 := by
  unfold round_to_grid
  have : ⌊((1 : ℚ) / 4 - 1) * 2 ^ 52 + 1 / 2⌋ = -3 * 2 ^ 50 := by
    rw [Int.floor_eq_iff]
    norm_num
  rw [this]
  norm_num

theorem c_int_neg_three_quarters : c_int (-3 / 4) = 0 := by
  rw [c_int_of_neg _ (by norm_num), Int.ceil_eq_iff]
  norm_num

/-- A bearing of `2^(-60)`: the exact difference `b - 1` truncates to 0, the
difference rounded to 52 fractional bits is `-1` and truncates to `-1`. -/
theorem bearing_rounds_before_truncation :
    c_int ((1 : ℚ) / 2 ^ 60 - 1) = 0 ∧
    round_to_grid 52 ((1 : ℚ) / 2 ^ 60 - 1) = -1 ∧
    c_int (round_to_grid 52 ((1 : ℚ) / 2 ^ 60 - 1)) = -1 := by
  have h1 : c_int ((1 : ℚ) / 2 ^ 60 - 1) = 0 := by
    rw [c_int_of_neg _ (by norm_num), Int.ceil_eq_iff]
    norm_num
  have h2 : round_to_grid 52 ((1 : ℚ) / 2 ^ 60 - 1) = -1 := by
    unfold round_to_grid
    have : ⌊((1 : ℚ) / 2 ^ 60 - 1) * 2 ^ 52 + 1 / 2⌋ = -(2 ^ 52) := by
      rw [Int.floor_eq_iff]
      norm_num
    rw [this]
    norm_num
  refine ⟨h1, h2, ?_⟩
  rw [h2]
  simpa using c_int_intCast (-1)

/-! ### The two passes of `generate_font` -/

/-- Below `0x10000` a call of `render_glyph` is defined and is its body run on
the string both passes read. -/
theorem render_glyph_ok (rnd : ℚ → ℚ) (src : OutlineSource) (cr : Cairo) (size : ℚ)
    (cp : Nat) (name : String) (h : cp < 0x10000) :
    ∃ text, c_string (generate_font_utf8 cp Utf8Buf.uninit) = Except.ok text ∧
      render_glyph rnd src cr size cp name =
        Except.ok (render_glyph_body rnd src ({ cr with font_size := size } : Cairo) size cp
          name (render_glyph_utf8 cp Utf8Buf.uninit).2 text) := by
  obtain ⟨text, ht⟩ := c_string_generate_font_utf8 cp Utf8Buf.uninit
  refine ⟨text, ht, ?_⟩
  have ht2 := ht
  rw [← c_string_render_glyph_utf8 cp Utf8Buf.uninit h] at ht2
  simp only [render_glyph, ht2]

/-- Every iteration of the second loop is defined and is its body run on the
string it reads. -/
theorem generate_font_glyph_ok (rnd : ℚ → ℚ) (src : OutlineSource) (cr : Cairo)
    (name : String) (size : Int) (cp : Nat) :
    ∃ text, c_string (generate_font_utf8 cp Utf8Buf.uninit) = Except.ok text ∧
      generate_font_glyph rnd src cr name size cp =
        Except.ok (generate_font_entry rnd src cr name size cp text) := by
  obtain ⟨text, ht⟩ := c_string_generate_font_utf8 cp Utf8Buf.uninit
  refine ⟨text, ht, ?_⟩
  simp only [generate_font_glyph, ht]

theorem render_glyphs_ok (rnd : ℚ → ℚ) (src : OutlineSource) (size : Int) (name : String)
    (cps : List Nat) (hall : ∀ cp ∈ cps, cp < 0x10000) :
    ∀ cr : Cairo, ∃ res, render_glyphs rnd src size name cps cr = Except.ok res ∧
      res.2.length = cps.length ∧
      (cr.font_size = (size : ℚ) → res.1.font_size = (size : ℚ)) ∧
      ∀ (j : Nat) (hj : j < cps.length), ∃ cr1 text,
        cr1.font_size = (size : ℚ) ∧
        c_string (generate_font_utf8 cps[j] Utf8Buf.uninit) = Except.ok text ∧
        res.2[j]? = some (render_glyph_body rnd src cr1 (size : ℚ) cps[j] name
          (render_glyph_utf8 cps[j] Utf8Buf.uninit).2 text) := by
  induction cps with
  | nil =>
    intro cr
    exact ⟨(cr, []), rfl, rfl, fun h => h, fun j hj => absurd hj (by simp)⟩
  | cons cp cps ih =>
    intro cr
    obtain ⟨text, ht, hr⟩ := render_glyph_ok rnd src cr (size : ℚ) cp name
      (hall cp (List.mem_cons_self _ _))
    obtain ⟨res, h1, h2, h3, h4⟩ := ih (fun c hc => hall c (List.mem_cons_of_mem _ hc))
      ({ cr with font_size := (size : ℚ) } : Cairo)
    refine ⟨(res.1, render_glyph_body rnd src ({ cr with font_size := (size : ℚ) } : Cairo)
      (size : ℚ) cp name (render_glyph_utf8 cp Utf8Buf.uninit).2 text :: res.2), ?_, ?_, ?_, ?_⟩
    · simp only [render_glyphs, hr]
      have : (render_glyph_body rnd src ({ cr with font_size := (size : ℚ) } : Cairo)
          (size : ℚ) cp name (render_glyph_utf8 cp Utf8Buf.uninit).2 text).cr =
          ({ cr with font_size := (size : ℚ) } : Cairo) := rfl
      rw [this, h1]
    · simp [h2]
    · intro _
      exact h3 rfl
    · intro j hj
      cases j with
      | zero => exact ⟨_, text, rfl, ht, by simp⟩
      | succ j =>
        obtain ⟨cr1, t, a, b, c⟩ := h4 j (by simpa using hj)
        exact ⟨cr1, t, a, by simpa using b, by simpa using c⟩

theorem generate_font_glyphs_ok (rnd : ℚ → ℚ) (src : OutlineSource) (cr : Cairo)
    (name : String) (size : Int) (cps : List Nat) :
    ∃ gs, generate_font_glyphs rnd src cr name size cps = Except.ok gs ∧
      gs.length = cps.length ∧
      ∀ (j : Nat) (hj : j < cps.length), ∃ text,
        c_string (generate_font_utf8 cps[j] Utf8Buf.uninit) = Except.ok text ∧
        gs[j]? = some (generate_font_entry rnd src cr name size cps[j] text) := by
  induction cps with
  | nil => exact ⟨[], rfl, rfl, fun j hj => absurd hj (by simp)⟩
  | cons cp cps ih =>
    obtain ⟨text, ht, hg⟩ := generate_font_glyph_ok rnd src cr name size cp
    obtain ⟨gs, h1, h2, h3⟩ := ih
    refine ⟨generate_font_entry rnd src cr name size cp text :: gs, ?_, ?_, ?_⟩
    · simp only [generate_font_glyphs, hg, h1]
    · simp [h2]
    · intro j hj
      cases j with
      | zero => exact ⟨text, ht, by simp⟩
      | succ j =>
        obtain ⟨t, b, c⟩ := h3 j (by simpa using hj)
        exact ⟨t, by simpa using b, by simpa using c⟩

/-! ## The claims on the packing loop -/

/-- C1. For every pixel `(x, y)` inside a `width` by `height` glyph, with
`k = y*width + x`, byte `k / 8` of the bytes the packing loop prints exists and
its bit `7 - k % 8` is 1 exactly when `data[y*stride + x] > 128` (a sample equal
to 128 gives 0).  No relation between `stride` and `width` is needed. -/
theorem pack_glyph_bit (data : Nat → Nat) (stride width height x y : Nat)
    (hx : x < width) (hy : y < height) :
    (y * width + x) / 8 < (pack_glyph data stride width height).emitted.length ∧
    (((pack_glyph data stride width height).emitted.getD ((y * width + x) / 8) 0).testBit
        (7 - (y * width + x) % 8) = true ↔ data (y * stride + x) > 128) := by
  have hk : y * width + x < (samples data stride width height).length := by
    rw [samples_length]
    have : (y + 1) * width ≤ height * width := Nat.mul_le_mul_right _ hy
    rw [Nat.succ_mul] at this
    omega
  obtain ⟨h1, h2⟩ := pack_flush_bits (samples data stride width height) _ hk
  rw [pack_glyph_eq]
  refine ⟨h1, ?_⟩
  rw [h2, samples_getD data stride width height x y hx hy]
  simp

/-- Witness for C1: a 3 by 2 glyph with stride 4 whose only sample above the
threshold is at `(1, 1)`. -/
theorem pack_glyph_bit_witness :
    (1 * 3 + 1) / 8 < (pack_glyph (fun i => if i = 5 then 200 else 128) 4 3 2).emitted.length ∧
    (((pack_glyph (fun i => if i = 5 then 200 else 128) 4 3 2).emitted.getD
        ((1 * 3 + 1) / 8) 0).testBit (7 - (1 * 3 + 1) % 8) = true ↔
      (fun i => if i = 5 then 200 else 128) (1 * 4 + 1) > 128) :=
  pack_glyph_bit (fun i => if i = 5 then 200 else 128) 4 3 2 1 1 (by decide) (by decide)

/-- C2. The final value of `count`, which is also the number of bytes printed,
is `ceil(width*height / 8)`; for `width*height = 0` that is 0. -/
theorem pack_glyph_count (data : Nat → Nat) (stride width height : Nat) :
    (pack_glyph data stride width height).count = ⌈((width * height : Nat) : ℚ) / 8⌉₊ ∧
    (pack_glyph data stride width height).emitted.length =
      ⌈((width * height : Nat) : ℚ) / 8⌉₊ := by
  have h := pack_flush_count (samples data stride width height)
  rw [samples_length, Nat.mul_comm height width] at h
  rw [pack_glyph_eq, nat_ceil_div_eight]
  exact h

/-- C10. When `width*height` is not a multiple of 8, the last byte printed has
its `8 - (width*height) % 8` low-order bits zero; and the bytes (and `count`)
are a function of the glyph's own samples alone: packing starts from
`pack_init`, and two buffers that agree on the pixels of the glyph give the same
result. -/
theorem pack_glyph_padding (data : Nat → Nat) (stride width height : Nat)
    (hne : (width * height) % 8 ≠ 0) :
    (∃ b, (pack_glyph data stride width height).emitted.getLast? = some b ∧
      b % 2 ^ (8 - (width * height) % 8) = 0) ∧
    pack_init.byte_val = 0 ∧ pack_init.bit_idx = 0 ∧
    (∀ (data2 : Nat → Nat) (stride2 : Nat),
      (∀ x y, x < width → y < height → data2 (y * stride2 + x) = data (y * stride + x)) →
      pack_glyph data2 stride2 width height = pack_glyph data stride width height) := by
  have hlen : (samples data stride width height).length = width * height := by
    rw [samples_length, Nat.mul_comm]
  refine ⟨?_, rfl, rfl, ?_⟩
  · obtain ⟨h1, h2⟩ := pack_flush_last (samples data stride width height) (by rw [hlen]; exact hne)
    rw [hlen] at h2
    exact ⟨_, by rw [pack_glyph_eq]; exact h1, h2⟩
  · intro data2 stride2 hagree
    rw [pack_glyph_eq, pack_glyph_eq, samples_congr data data2 stride stride2 width height hagree]

/-- Witness for C10: a fully covered 3 by 2 glyph (six samples, two padding bits). -/
theorem pack_glyph_padding_witness :
    (3 * 2) % 8 ≠ 0 ∧
    (∃ b, (pack_glyph (fun _ => 255) 4 3 2).emitted.getLast? = some b ∧
      b % 2 ^ (8 - (3 * 2) % 8) = 0) :=
  ⟨by decide, (pack_glyph_padding (fun _ => 255) 4 3 2 (by decide)).1⟩

/-! ## The claims on the two passes -/

/-- C3. When every code point of the list is below `0x10000`, one iteration of
the size loop of `generate_font` is defined, and for every index `i` the `Glyph`
entry written by the second pass and the call of `render_glyph` in the first
pass are for the same code point and the same text, the entry's `width` and
`height` are the ones the surface was created with, and the bytes of the
printed constant are the packing of exactly that `width` by `height` surface:
the loop bounds, the surface and the stride are all those of the entry's
dimensions.  This holds for every outline source and every rounding. -/
theorem cross_pass_dims (rnd : ℚ → ℚ) (src : OutlineSource) (cr : Cairo) (name : String)
    (size : Int) (cps : List Nat) (hall : ∀ cp ∈ cps, cp < 0x10000) :
    ∃ run, generate_font_size rnd src cr name size cps = Except.ok run ∧
      run.renders.length = cps.length ∧ run.glyphs.length = cps.length ∧
      ∀ (i : Nat) (hi : i < cps.length), ∃ g r text,
        run.glyphs[i]? = some g ∧ run.renders[i]? = some r ∧
        c_string (generate_font_utf8 cps[i] Utf8Buf.uninit) = Except.ok text ∧
        g.cp = cps[i] ∧ g.width = r.width ∧ g.height = r.height ∧
        r.item = OutItem.glyph_data name size cps[i]
          (pack_glyph
            (src.surface_data text (size : ℚ) g.width g.height
              (rnd (-(src.text_extents text (size : ℚ)).x_bearing + 1))
              (rnd (-(src.text_extents text (size : ℚ)).y_bearing + 1)))
            (src.surface_stride g.width g.height) g.width.toNat g.height.toNat).emitted := by
  obtain ⟨res, h1, h2, h3, h4⟩ := render_glyphs_ok rnd src size name cps hall
    ({ cr with font_size := (size : ℚ) } : Cairo)
  obtain ⟨gs, g1, g2, g3⟩ := generate_font_glyphs_ok rnd src res.1 name size cps
  have hcr : res.1.font_size = (size : ℚ) := h3 rfl
  refine ⟨{ cr := res.1, renders := res.2, glyphs := gs,
            out := [OutItem.font_comment name size] ++ res.2.map (fun r => r.item) ++
              [OutItem.init_open name size] ++ gs.map OutItem.glyph_put ++
              [OutItem.init_return
                (c_int (src.font_extents (size : ℚ)).height)
                (c_int (src.font_extents (size : ℚ)).ascent)
                (c_int (src.font_extents (size : ℚ)).descent)] }, ?_, h2, g2, ?_⟩
  · simp only [generate_font_size, h1, g1]
  · intro i hi
    obtain ⟨cr1, text, hc1, ht, hr⟩ := h4 i hi
    obtain ⟨text2, ht2, hg⟩ := g3 i hi
    have htt : text2 = text := by
      rw [ht] at ht2
      exact (Except.ok.inj ht2).symm
    subst htt
    refine ⟨_, _, text2, hg, hr, ht, rfl, ?_, ?_, ?_⟩
    · simp only [generate_font_entry, render_glyph_body, hcr, hc1,
        render_glyph_dims_eq_generate_font_dims]
    · simp only [generate_font_entry, render_glyph_body, hcr, hc1,
        render_glyph_dims_eq_generate_font_dims]
    · simp only [generate_font_entry, render_glyph_body, hcr, hc1,
        render_glyph_dims_eq_generate_font_dims, c_int_intCast]

/-- Witness for C3: the space and the letter `A` at size 20. -/
theorem cross_pass_dims_witness :
    (∀ cp ∈ [0x20, 0x41], cp < 0x10000) ∧
    ∃ run, generate_font_size (round_to_grid 52) (flat_source ⟨0, -9, 17 / 2, 9, 10, 0⟩ 255)
        ⟨10⟩ "ubuntu" 20 [0x20, 0x41] = Except.ok run ∧
      ∃ g r, run.glyphs[1]? = some g ∧ run.renders[1]? = some r ∧ g.cp = 0x41 ∧
        g.width = r.width ∧ g.height = r.height ∧
        r.item = OutItem.glyph_data "ubuntu" 20 0x41
          (pack_glyph (fun _ => 255) g.width.toNat g.width.toNat g.height.toNat).emitted := by
  refine ⟨by decide, ?_⟩
  obtain ⟨run, h1, _, _, h4⟩ := cross_pass_dims (round_to_grid 52)
    (flat_source ⟨0, -9, 17 / 2, 9, 10, 0⟩ 255) ⟨10⟩ "ubuntu" 20 [0x20, 0x41] (by decide)
  obtain ⟨g, r, text, a, b, _, d, e, f, i⟩ := h4 1 (by decide)
  exact ⟨run, h1, g, r, a, b, d, e, f, i⟩

/-- C9 (as amended). For every code point the second pass of `generate_font`
writes a `Glyph` entry `g`, and with `e` the extents it measured:
`g.advance_x = floor(e.x_advance)` when the advance is non-negative; each
bearing of `g` is the `double` difference `bearing - 1` with its fraction
dropped toward zero, which is `floor(b) - 1` for `b >= 1` and `ceil(b) - 1` for
`b < 1` whenever the difference is delivered exactly, and in every case (for
`|b| <= 2^52`) is one of `floor(b) - 1`, `floor(b)` for `b >= 1` and one of
`ceil(b) - 2`, `ceil(b) - 1` for `b < 1`. -/
theorem glyph_entry_metrics (rnd : ℚ → ℚ) (src : OutlineSource) (cr : Cairo) (name : String)
    (size : Int) (cp : Nat) (hr : IsDoubleRounding rnd) :
    ∃ text g, c_string (generate_font_utf8 cp Utf8Buf.uninit) = Except.ok text ∧
      generate_font_glyph rnd src cr name size cp = Except.ok g ∧
      ∀ e, e = src.text_extents text cr.font_size →
        (0 ≤ e.x_advance → g.advance_x = ⌊e.x_advance⌋) ∧
        g.bearing_x = c_int (rnd (e.x_bearing - 1)) ∧
        g.bearing_y = c_int (rnd (e.y_bearing - 1)) ∧
        (rnd (e.x_bearing - 1) = e.x_bearing - 1 →
          g.bearing_x = if 1 ≤ e.x_bearing then ⌊e.x_bearing⌋ - 1 else ⌈e.x_bearing⌉ - 1) ∧
        (rnd (e.y_bearing - 1) = e.y_bearing - 1 →
          g.bearing_y = if 1 ≤ e.y_bearing then ⌊e.y_bearing⌋ - 1 else ⌈e.y_bearing⌉ - 1) ∧
        (|e.x_bearing| ≤ 2 ^ 52 →
          (1 ≤ e.x_bearing → g.bearing_x = ⌊e.x_bearing⌋ - 1 ∨ g.bearing_x = ⌊e.x_bearing⌋) ∧
          (e.x_bearing < 1 →
            g.bearing_x = ⌈e.x_bearing⌉ - 2 ∨ g.bearing_x = ⌈e.x_bearing⌉ - 1)) ∧
        (|e.y_bearing| ≤ 2 ^ 52 →
          (1 ≤ e.y_bearing → g.bearing_y = ⌊e.y_bearing⌋ - 1 ∨ g.bearing_y = ⌊e.y_bearing⌋) ∧
          (e.y_bearing < 1 →
            g.bearing_y = ⌈e.y_bearing⌉ - 2 ∨ g.bearing_y = ⌈e.y_bearing⌉ - 1)) := by
  obtain ⟨text, ht, hg⟩ := generate_font_glyph_ok rnd src cr name size cp
  refine ⟨text, _, ht, hg, ?_⟩
  intro e he
  subst he
  refine ⟨fun ha => c_int_of_nonneg _ ha, rfl, rfl, ?_, ?_, ?_, ?_⟩
  · exact fun hex => c_int_rnd_sub_one_exact rnd _ hex
  · exact fun hex => c_int_rnd_sub_one_exact rnd _ hex
  · exact fun hb => c_int_rnd_sub_one_bounds rnd hr _ hb
  · exact fun hb => c_int_rnd_sub_one_bounds rnd hr _ hb

/-- Witness for C9 (as amended): the letter `A` with advance `43/4`, a
horizontal bearing of `2^(-60)` and a vertical bearing of `-37/4`, under
rounding to 52 fractional bits. -/
theorem glyph_entry_metrics_witness :
    IsDoubleRounding (round_to_grid 52) ∧
    ∃ g, generate_font_glyph (round_to_grid 52)
        (flat_source ⟨1 / 2 ^ 60, -37 / 4, 10, 9, 43 / 4, 0⟩ 255) ⟨20⟩ "ubuntu" 20 0x41 =
          Except.ok g ∧
      g.advance_x = ⌊(43 / 4 : ℚ)⌋ ∧
      (g.bearing_x = ⌈((1 : ℚ) / 2 ^ 60)⌉ - 2 ∨ g.bearing_x = ⌈((1 : ℚ) / 2 ^ 60)⌉ - 1) ∧
      (g.bearing_y = ⌈(-37 / 4 : ℚ)⌉ - 2 ∨ g.bearing_y = ⌈(-37 / 4 : ℚ)⌉ - 1) := by
  refine ⟨round_to_grid_isDoubleRounding 52, ?_⟩
  obtain ⟨text, g, _, hg, h⟩ := glyph_entry_metrics (round_to_grid 52)
    (flat_source ⟨1 / 2 ^ 60, -37 / 4, 10, 9, 43 / 4, 0⟩ 255) ⟨20⟩ "ubuntu" 20 0x41
    (round_to_grid_isDoubleRounding 52)
  obtain ⟨h1, _, _, _, _, h6, h7⟩ := h _ rfl
  refine ⟨g, hg, h1 (by norm_num [flat_source]), ?_, ?_⟩
  · exact (h6 (by norm_num [flat_source, abs_le])).2 (by norm_num [flat_source])
  · exact (h7 (by norm_num [flat_source, abs_le])).2 (by norm_num [flat_source])

/-- C9 fails as stated: with advance `3/4` and bearings `1/4` (the difference
`1/4 - 1 = -3/4` is exact) the entry has `advance_x = 0` and
`bearing_x = bearing_y = 0`, while `round(3/4) = 1` and `round(1/4) - 1 = -1`. -/
theorem glyph_entry_not_rounded :
    generate_font_glyph (round_to_grid 52) (flat_source ⟨1 / 4, 1 / 4, 3, 3, 3 / 4, 0⟩ 255)
        ⟨20⟩ "f" 20 0x41 =
      Except.ok { cp := 0x41, width := 5, height := 5, advance_x := 0, bearing_x := 0,
                  bearing_y := 0, data_name := "f", data_size := 20, data_cp := 0x41 } ∧
    round (3 / 4 : ℚ) = 1 ∧ round (1 / 4 : ℚ) - 1 = -1 ∧
    (0 : Int) ≠ round (3 / 4 : ℚ) ∧ (0 : Int) ≠ round (1 / 4 : ℚ) - 1 := by
  have hr1 : round (3 / 4 : ℚ) = 1 := by norm_num [round_eq]
  have hr2 : round (1 / 4 : ℚ) - 1 = -1 := by norm_num [round_eq]
  have hs : c_string (generate_font_utf8 0x41 Utf8Buf.uninit) = Except.ok [0x41] := by rfl
  have h3 : c_int 3 = 3 := by simpa using c_int_intCast 3
  refine ⟨?_, hr1, hr2, by rw [hr1]; decide, by rw [hr2]; decide⟩
  simp only [generate_font_glyph, hs, generate_font_entry, flat_source, generate_font_dims,
    generate_font_provisional, h3, c_int_three_quarters, round_to_grid_quarter_sub_one,
    c_int_neg_three_quarters]
  rfl

end Fontgen
